import Mathlib

/-!
Verification of the codespell extension core: the diff-based change
detector (`findDifferences` / `extractAddedLines` from `out/utils.js`),
the token-to-range resolver (`escapeRegExp` / `refreshDiagnostics` and the
`CodespellDiagnostic` constructor from the diagnostics module), and the
per-document lifecycle handlers (save and close).  JavaScript strings are
embedded as lists of characters; JavaScript numbers that are only ever
integral indices are embedded as `Nat`; asynchronous code is embedded as
explicit phase functions on an explicit state record; the two external
libraries the code calls (jsdiff and the JS RegExp engine) are modelled,
with documentation on each modelled definition.
-/

set_option autoImplicit false

/-- A JavaScript string, embedded as a list of characters. -/
abbrev JStr := List Char

/-- Coerce a Lean string literal into the `JStr` embedding. -/
def str : String → JStr := String.toList

/-- Boolean test that `pre` is a prefix of `s` (JS `String.startsWith`,
also used to model a literal pattern matching at the front of a text). -/
def startsWithSeq : JStr → JStr → Bool
  | [], _ => true
  | _ :: _, [] => false
  | p :: ps, c :: cs => p = c && startsWithSeq ps cs

/-- Boolean test that `pat` occurs somewhere in `s` as a contiguous
subsequence. -/
def containsSeq (pat : JStr) : JStr → Bool
  | [] => startsWithSeq pat []
  | c :: rest => startsWithSeq pat (c :: rest) || containsSeq pat rest

/-- Prepend a character to the first chunk of a chunk list (helper for the
split functions). -/
def consHead (c : Char) : List JStr → List JStr
  | [] => [[c]]
  | l :: ls => (c :: l) :: ls

/-- JS `string.split(sep)` for a one-character separator `sep`. -/
def splitOnChar (sep : Char) (s : JStr) : List JStr :=
  s.foldr (fun c acc => if c = sep then [] :: acc else consHead c acc) [[]]

/-- Fuel-indexed worker for `splitOnSeq`; each step consumes at least one
character, so fuel equal to the length of the input is always enough. -/
def splitOnSeqGo (sep : JStr) : Nat → JStr → List JStr
  | _, [] => [[]]
  | 0, s => [s]
  | fuel + 1, c :: rest =>
    if startsWithSeq sep (c :: rest) then
      [] :: splitOnSeqGo sep fuel (List.drop (sep.length - 1) rest)
    else
      consHead c (splitOnSeqGo sep fuel rest)

/-- JS `string.split(sep)` for a string separator: non-overlapping,
left-to-right.  An empty separator splits into single characters, as in
JavaScript. -/
def splitOnSeq (sep s : JStr) : List JStr :=
  if sep.isEmpty then s.map (fun c => [c]) else splitOnSeqGo sep s.length s

/-- Lodash `_.isEmpty` on a string or an array: true exactly when the
length is zero. -/
def lodashIsEmpty (s : JStr) : Bool := s.isEmpty

/-- Modelled from the spec: the line tokenizer of the external jsdiff
library (`diffLines`), which is not part of this repository.  It cuts the
text into lines, each keeping its trailing newline; a final fragment
without a newline is kept as its own line; the empty text has no lines. -/
def linesKeepNl (s : JStr) : List JStr :=
  s.foldr
    (fun c acc =>
      if c = '\n' then ['\n'] :: acc else consHead c acc)
    []

/-- Longest common prefix of two line lists together with the two
remaining suffixes (the shape of a jsdiff line diff whose only change is a
trailing insertion or replacement). -/
def commonLead : List JStr → List JStr → List JStr × List JStr × List JStr
  | [], ys => ([], [], ys)
  | x :: xs, [] => ([], x :: xs, [])
  | x :: xs, y :: ys =>
    if x = y then
      let r := commonLead xs ys
      (x :: r.1, r.2.1, r.2.2)
    else
      ([], x :: xs, y :: ys)

/-- Decimal digit character for a value below ten. -/
def digitChar (n : Nat) : Char := Char.ofNat (48 + n)

/-- Fuel-indexed decimal printer for `Nat` (most significant digit
first). -/
def natDigitsGo : Nat → Nat → JStr
  | 0, _ => []
  | fuel + 1, n =>
    if n < 10 then [digitChar n] else natDigitsGo fuel (n / 10) ++ [digitChar (n % 10)]

/-- Decimal representation of a `Nat` as an embedded JS string. -/
def natToJStr (n : Nat) : JStr := natDigitsGo (n + 1) n

/-- Remove one trailing newline from a line, as jsdiff does before
prefixing hunk lines with their markers. -/
def stripNl (l : JStr) : JStr :=
  if l.getLast? = some '\n' then l.dropLast else l

/-- True when the text ends with a newline (used for the jsdiff
"No newline at end of file" marker). -/
def endsWithNl (s : JStr) : Bool := s.getLast? = some '\n'

/-- The jsdiff marker line emitted after the last hunk line of a file that
does not end with a newline.  It starts with a backslash, not a plus. -/
def noNewlineMarker : JStr := str ("\\ No newline at end of file")

/-- The jsdiff separator line: sixty-seven equals signs. -/
def separatorLine : JStr := List.replicate 67 '='

/-- The hunk header line, `@@ -a,b +c,d @@`. -/
def hunkHeader (oldStart oldCount newStart newCount : Nat) : JStr :=
  str ("@@ -") ++ natToJStr oldStart ++ [','] ++ natToJStr oldCount ++
    str (" +") ++ natToJStr newStart ++ [','] ++ natToJStr newCount ++ str (" @@")

/-- The hunk body for a diff whose only change is after a common prefix of
lines: up to four preceding context lines, the removed lines, then the
added lines, each newline-stripped and marker-prefixed, with the
no-newline markers where a side does not end in a newline. -/
def hunkLinesFor (before after : JStr) (common oldRest newRest : List JStr) : List JStr :=
  let ctx := List.drop (common.length - 4) common
  let oldStart := common.length - ctx.length + 1
  hunkHeader oldStart (ctx.length + oldRest.length) oldStart (ctx.length + newRest.length) ::
    (ctx.map (fun l => ' ' :: stripNl l) ++
      (oldRest.map (fun l => '-' :: stripNl l) ++
        (if oldRest.isEmpty || endsWithNl before then [] else [noNewlineMarker]) ++
        (newRest.map (fun l => '+' :: stripNl l) ++
          (if newRest.isEmpty || endsWithNl after then [] else [noNewlineMarker]))))

/-- Modelled from the spec: `Diff.createPatch("code", before, after)` of
the external jsdiff library, which is not part of this repository.  It
returns a unified patch: an `Index:` line, a separator line, the `---` and
`+++ ` file header lines, and for each change a hunk of marker-prefixed
lines.  The model computes the line diff as the longest common prefix of
the two line lists followed by one trailing change, which coincides with
the jsdiff output on the no-change and append-only inputs the claims
exercise; the hunk carries at most four lines of preceding context, as
jsdiff does by default. -/
def createPatch (before after : JStr) : JStr :=
  let oldLines := linesKeepNl before
  let newLines := linesKeepNl after
  let r := commonLead oldLines newLines
  let headerLines : List JStr :=
    [str ("Index: code"),
     separatorLine,
     str ("--- code"),
     str ("+++ code")]
  let hunkLines : List JStr :=
    if r.2.1.isEmpty && r.2.2.isEmpty then []
    else hunkLinesFor before after r.1 r.2.1 r.2.2
  List.intercalate ['\n'] (headerLines ++ hunkLines) ++ ['\n']

/-- Source `out/utils.js`, `extractAddedLines`: split the patch into
lines, keep the lines starting with a plus, drop the marker character,
join with newlines, split on the leaked `++ code` header token, and drop
empty blocks. -/
def extractAddedLines (diff : JStr) : List JStr :=
  (splitOnSeq (str ("++ code"))
      (List.intercalate ['\n']
        (((splitOnChar '\n' diff).filter (fun line => startsWithSeq ['+'] line)).map
          (fun line => List.drop 1 line)))).filter
    (fun item => !lodashIsEmpty item)

/-- Source `out/utils.js`, `findDifferences`: generate the unified patch
between the two texts and extract its added lines. -/
def findDifferences (code1 code2 : JStr) : List JStr :=
  extractAddedLines (createPatch code1 code2)

/-! ## The range resolver: escaping, the regex engine, and the exec loop -/

/-- JS whitespace, the character set matched by the regex whitespace
class: tab through carriage return, space, and the unicode space
characters. -/
def isJsSpace (c : Char) : Bool :=
  c = ' ' || c = '\t' || c = '\n' || c = '\r' || c.toNat = 11 || c.toNat = 12 ||
    c.toNat = 160 || c.toNat = 5760 || (8192 ≤ c.toNat && c.toNat ≤ 8202) ||
    c.toNat = 8232 || c.toNat = 8233 || c.toNat = 8239 || c.toNat = 8287 ||
    c.toNat = 12288 || c.toNat = 65279

/-- The character class of the replace call in the source `escapeRegExp`:
dash, brackets, braces, parentheses, star, plus, question mark, dot,
comma, backslash, caret, dollar, bar, hash, and whitespace. -/
def inEscapeClass (c : Char) : Bool :=
  c = '-' || c = '[' || c = ']' || c = '{' || c = '}' || c = '(' || c = ')' ||
    c = '*' || c = '+' || c = '?' || c = '.' || c = ',' || c = '\\' ||
    c = '^' || c = '$' || c = '|' || c = '#' || isJsSpace c

/-- Source `escapeRegExp`: put a backslash before every character of the
escape class, leaving the other characters alone. -/
def escapeRegExp (text : JStr) : JStr :=
  text.foldr (fun c acc => if inEscapeClass c then '\\' :: c :: acc else c :: acc) []

/-- A single-character regex atom: a literal character or the dot
wildcard. -/
inductive RegexAtom where
  | lit (c : Char)
  | anyChar
  deriving DecidableEq, Repr

/-- JS line terminators, relevant to the dot wildcard and, under the `m`
flag, to the anchors. -/
def isLineTerm (c : Char) : Bool :=
  c = '\n' || c = '\r' || c.toNat = 8232 || c.toNat = 8233

/-- Whether an atom matches a character. -/
def atomMatches : RegexAtom → Char → Bool
  | .lit d, c => c = d
  | .anyChar, c => !isLineTerm c

/-- Consume one atom at a position: the next position when the character
there matches. -/
def stepAtom (a : RegexAtom) (text : JStr) (pos : Nat) : Option Nat :=
  match text.get? pos with
  | some c => if atomMatches a c then some (pos + 1) else none
  | none => none

/-- Zero-width test for the caret anchor under the `m` flag: start of the
text or right after a line terminator. -/
def atLineStart (text : JStr) (pos : Nat) : Bool :=
  pos = 0 ||
    (match text.get? (pos - 1) with
     | some c => isLineTerm c
     | none => false)

/-- Zero-width test for the dollar anchor under the `m` flag: end of the
text or right before a line terminator. -/
def atLineEnd (text : JStr) (pos : Nat) : Bool :=
  pos = text.length ||
    (match text.get? pos with
     | some c => isLineTerm c
     | none => false)

/-- Characters with a special meaning at the top level of a JS regex
pattern; every one of them is in the escape class of `escapeRegExp`. -/
def isRegexSpecial (c : Char) : Bool :=
  c = '\\' || c = '^' || c = '$' || c = '.' || c = '*' || c = '+' ||
    c = '?' || c = '(' || c = ')' || c = '[' || c = ']' || c = '{' ||
    c = '}' || c = '|'

mutual

/-- Modelled from the spec: the matcher of the JS `RegExp` engine (an
external builtin) at a fixed text position, for the pattern fragment the
escaped tokens can produce together with the unescaped wildcard, anchor
and quantifier forms that escaping exists to neutralize.  A backslash
followed by any character matches that character literally (the escaped
characters are all non-alphanumeric, for which JS guarantees exactly that
reading); an unescaped dot is the wildcard; unescaped caret and dollar
are the `m`-flag anchors; unescaped star, plus and question mark
quantify the preceding atom greedily with backtracking; the remaining
unescaped special characters open constructs (groups, classes, counted
repetition, alternation) outside the modelled fragment and fail; every
other character matches itself.  Fuel bounds the recursion; two units
per pattern character are enough for quantifier-free patterns. -/
def matchHere : Nat → JStr → JStr → Nat → Option Nat
  | 0, _, _, _ => none
  | fuel + 1, pat, text, pos =>
    match pat with
    | [] => some pos
    | p :: rest =>
      if p = '\\' then
        match rest with
        | [] => none
        | c :: rest2 => matchAtom fuel (.lit c) rest2 text pos
      else if p = '^' then
        if atLineStart text pos then matchHere fuel rest text pos else none
      else if p = '$' then
        if atLineEnd text pos then matchHere fuel rest text pos else none
      else if p = '.' then
        matchAtom fuel .anyChar rest text pos
      else if isRegexSpecial p then none
      else matchAtom fuel (.lit p) rest text pos

/-- Match one atom, honouring a quantifier right behind it, then the rest
of the pattern. -/
def matchAtom : Nat → RegexAtom → JStr → JStr → Nat → Option Nat
  | 0, _, _, _, _ => none
  | fuel + 1, a, rest, text, pos =>
    match rest with
    | q :: rest2 =>
      if q = '*' then matchStar fuel a rest2 text pos
      else if q = '+' then
        match stepAtom a text pos with
        | some pos2 => matchStar fuel a rest2 text pos2
        | none => none
      else if q = '?' then
        match stepAtom a text pos with
        | some pos2 =>
          match matchHere fuel rest2 text pos2 with
          | some e => some e
          | none => matchHere fuel rest2 text pos
        | none => matchHere fuel rest2 text pos
      else
        match stepAtom a text pos with
        | some pos2 => matchHere fuel rest text pos2
        | none => none
    | [] =>
      match stepAtom a text pos with
      | some pos2 => matchHere fuel rest text pos2
      | none => none

/-- Greedy star with backtracking. -/
def matchStar : Nat → RegexAtom → JStr → JStr → Nat → Option Nat
  | 0, _, _, _, _ => none
  | fuel + 1, a, rest, text, pos =>
    match stepAtom a text pos with
    | some pos2 =>
      match matchStar fuel a rest text pos2 with
      | some e => some e
      | none => matchHere fuel rest text pos
    | none => matchHere fuel rest text pos

end

/-- Fuel-indexed position scan of `regexExec`; fuel
`text.length + 1 - start` covers every candidate position. -/
def execScanGo (pat text : JStr) : Nat → Nat → Option (Nat × Nat)
  | 0, _ => none
  | fuel + 1, i =>
    if text.length < i then none
    else
      match matchHere (2 * pat.length + 1) pat text i with
      | some e => some (i, e)
      | none => execScanGo pat text fuel (i + 1)

/-- Modelled from the spec: one call of `regex.exec(text)` on a global
regex whose `lastIndex` is `start` (an external JS builtin): the first
position at or after `start` where the pattern matches, with the match
end, and `none` when no position up to the end of the text matches.  The
matcher fuel `2 * pat.length + 1` is exact for the quantifier-free
patterns produced by `escapeRegExp`, the only patterns this code builds. -/
def regexExec (pat text : JStr) (start : Nat) : Option (Nat × Nat) :=
  execScanGo pat text (text.length + 1 - start) start

/-- The while loop inside `refreshDiagnostics`: repeatedly call
`regex.exec` and record the match offsets, the next search starting at
the end of the match just found (JS `lastIndex`).  The loop is embedded
with fuel counting its iterations, and `none` means the loop has not
finished within that many iterations: on a zero-length match the JS loop
never advances `lastIndex`, so it never finishes and the embedding
returns `none` at every fuel. -/
def execLoop (pat text : JStr) : Nat → Nat → List (Nat × Nat) → Option (List (Nat × Nat))
  | 0, _, _ => none
  | fuel + 1, lastIndex, acc =>
    match regexExec pat text lastIndex with
    | none => some acc.reverse
    | some m => execLoop pat text fuel m.2 (m :: acc)

/-- The first literal occurrence of `token` in `text` at or after
position `start`: the least such position where a verbatim copy of
`token` begins. -/
def firstOcc (token text : JStr) (start : Nat) : Option Nat :=
  (List.range' start (text.length + 1 - start)).find?
    (fun i => startsWithSeq token (text.drop i))

/-- Fuel-indexed scan collecting the literal, non-overlapping,
left-to-right occurrences of `token` in `text` from `start` on; for a
non-empty token, fuel `text.length + 1` always suffices. -/
def litStartsGo (token text : JStr) : Nat → Nat → List Nat
  | 0, _ => []
  | fuel + 1, start =>
    match firstOcc token text start with
    | none => []
    | some i => i :: litStartsGo token text fuel (i + token.length)

/-- The literal, non-overlapping, left-to-right occurrences of `token` in
`text`: each listed position begins a verbatim copy of the token
(`firstOcc` is defined by `startsWithSeq` — no pattern interpretation,
no line anchors, newlines inside the token compared like any other
character). -/
def litStarts (token text : JStr) : List Nat :=
  litStartsGo token text (text.length + 1) 0

/-! ## The data model and the diagnostics constructor -/

/-- The severity enumeration of the editor surface. -/
inductive DiagnosticSeverity where
  | Error
  | Warning
  | Information
  | Hint
  deriving DecidableEq, Repr

/-- Modelled from the spec: the `CodespellTypo` record of `src/typo.ts`,
a source file missing from this excerpt — a flagged token with suggested
replacements, a description, an optional explicit severity and an
optional commonality flag (absent JS fields embedded as `none`). -/
structure CodespellTypo where
  token : JStr
  suggestions : List JStr
  info : JStr
  severity : Option DiagnosticSeverity
  isCommon : Option Bool
  deriving DecidableEq, Repr

/-- Source constant `CODE_SPELL_MENTION`, the code tag carried by every
diagnostic of this family. -/
def CODE_SPELL_MENTION : JStr := str ("codespell")

/-- Modelled from the spec: `TextDocument.positionAt` of the editor API
(external): the zero-based line and column of a character offset, the
offset clamped to the text length. -/
def positionAt (text : JStr) (off : Nat) : Nat × Nat :=
  let pre := text.take off
  (pre.count '\n', ((pre.reverse).takeWhile (fun c => c ≠ '\n')).length)

/-- The diagnostic record: a located typo occurrence (a plain record in
place of the editor base class). -/
structure CodespellDiagnostic where
  startOffset : Nat
  endOffset : Nat
  startPos : Nat × Nat
  endPos : Nat × Nat
  message : JStr
  severity : DiagnosticSeverity
  code : JStr
  typo : CodespellTypo
  token : JStr
  suggestions : List JStr
  deriving DecidableEq, Repr

/-- Source `CodespellDiagnostic` constructor: the range is the pair of
match offsets mapped through `positionAt`, the message is `typo.info`,
the severity is the explicit `typo.severity` when present and otherwise
derived from `typo.isCommon` (`Warning` unless it is literally `false`),
the code is the constant tag, and the token and suggestions are copied
from the typo. -/
def mkDiagnostic (text : JStr) (typo : CodespellTypo) (s e : Nat) : CodespellDiagnostic :=
  { startOffset := s
    endOffset := e
    startPos := positionAt text s
    endPos := positionAt text e
    message := typo.info
    severity :=
      match typo.severity with
      | some sev => sev
      | none => if typo.isCommon ≠ some false then .Warning else .Information
    code := CODE_SPELL_MENTION
    typo := typo
    token := typo.token
    suggestions := typo.suggestions }

/-- The per-typo body of `refreshDiagnostics`: compile the escaped token
and run the exec loop, one diagnostic per match, in match order.  A
`none` propagates a loop that did not finish within the fuel. -/
def typoDiags (fuel : Nat) (text : JStr) (typo : CodespellTypo) :
    Option (List CodespellDiagnostic) :=
  (execLoop (escapeRegExp typo.token) text fuel 0 []).map
    (fun ms => ms.map (fun m => mkDiagnostic text typo m.1 m.2))

/-- The diagnostics array `refreshDiagnostics` accumulates over the typo
list, in typo order and, within a typo, in match order; a typo whose
match loop does not finish makes the whole refresh not finish. -/
def computeDiags (fuel : Nat) (typos : List CodespellTypo) (text : JStr) :
    Option (List CodespellDiagnostic) :=
  match typos with
  | [] => some []
  | ty :: rest =>
    match typoDiags fuel text ty with
    | none => none
    | some ds => (computeDiags fuel rest text).map (fun ds2 => ds ++ ds2)

/-! ## The per-document state and the lifecycle handlers -/

/-- A JS `Map` (or the Diagnostic Collection) from document identity to a
value, embedded as an association list with the newest binding first. -/
abbrev StoreMap (α : Type) := List (JStr × α)

/-- `map.get(key)`, `none` for an absent key. -/
def lookupS {α : Type} : StoreMap α → JStr → Option α
  | [], _ => none
  | (k, v) :: rest, key => if k = key then some v else lookupS rest key

/-- `map.delete(key)`: drop every binding of the key. -/
def eraseS {α : Type} : StoreMap α → JStr → StoreMap α
  | [], _ => []
  | (k, v) :: rest, key => if k = key then eraseS rest key else (k, v) :: eraseS rest key

/-- `map.set(key, value)`: fully replace the binding of the key. -/
def setS {α : Type} (m : StoreMap α) (key : JStr) (v : α) : StoreMap α :=
  (key, v) :: eraseS m key

/-- The mutable state the diagnostics module works on: the Typo Store
(`DocumentsToTypos` of the `spellcheck` module), the Diagnostic
Collection, and the `lastSavedContent` baseline map closed over by the
save listener. -/
structure ExtState where
  typoStore : StoreMap (List CodespellTypo)
  diagColl : StoreMap (List CodespellDiagnostic)
  lastSavedContent : StoreMap JStr
  deriving DecidableEq, Repr

/-- Source `refreshDiagnostics`: read the Typo Store entry of the
document; with no entry, return before touching the Diagnostic
Collection; with an entry, rebuild the diagnostics from the current text
and set the collection entry.  A `none` propagates a match loop that did
not finish within the fuel. -/
def refreshDiagnostics (fuel : Nat) (st : ExtState) (uri text : JStr) :
    Option ExtState :=
  match lookupS st.typoStore uri with
  | none => some st
  | some typos =>
    (computeDiags fuel typos text).map
      (fun ds => { st with diagColl := setS st.diagColl uri ds })

/-- Source close listener (`onDidCloseTextDocument` subscription): delete
the Diagnostic Collection entry of the document — and nothing else; the
Typo Store and the baseline map are not touched. -/
def closeHandler (st : ExtState) (uri : JStr) : ExtState :=
  { st with diagColl := eraseS st.diagColl uri }

/-- Modelled from the spec: `spellCheck` of the missing
`src/spellcheck.ts` resolves the Typo Source Adapter on the added blocks
and replaces the Typo Store entry of the document; an adapter failure
(network error, rejected promise, malformed analysis response) is caught
there and leaves the store unchanged.  The adapter outcome is passed in
explicitly. -/
def spellCheckApply (st : ExtState) (uri : JStr)
    (outcome : Except Unit (List CodespellTypo)) : ExtState :=
  match outcome with
  | .ok typos => { st with typoStore := setS st.typoStore uri typos }
  | .error _ => st

/-- The synchronous part of the save listener, up to the `await`: read
the baseline, diff it against the content captured at save time, and
either finish at once (empty diff: only the baseline is updated, no
analysis runs) or suspend, returning the added blocks for the adapter
with the state untouched until the analysis resolves. -/
def savePhase1 (st : ExtState) (uri content : JStr) :
    ExtState × Option (List JStr) :=
  let previous := (lookupS st.lastSavedContent uri).getD []
  let differences := findDifferences previous content
  if differences.isEmpty then
    ({ st with lastSavedContent := setS st.lastSavedContent uri content }, none)
  else (st, some differences)

/-- The continuation of the save listener after the awaited analysis:
apply the adapter outcome to the Typo Store (`spellCheckApply`), refresh
the diagnostics against the live text of the document at resolution time,
and finally write the content captured back at save time into the
baseline map. -/
def savePhase2 (fuel : Nat) (st : ExtState) (uri captured live : JStr)
    (outcome : Except Unit (List CodespellTypo)) : Option ExtState :=
  (refreshDiagnostics fuel (spellCheckApply st uri outcome) uri live).map
    (fun st2 => { st2 with lastSavedContent := setS st2.lastSavedContent uri captured })

/-- A text assembled from a list of lines, each line getting a trailing
newline: the encoding of "a document whose lines are exactly these". -/
def flattenNl (ls : List JStr) : JStr :=
  (ls.map (fun l => l ++ ['\n'])).flatten

/-! ## Helper lemmas about the split and line functions -/

theorem commonLead_self (l : List JStr) : commonLead l l = (l, [], []) := by
  induction l with
  | nil => rfl
  | cons x xs ih => simp [commonLead, ih]

theorem commonLead_append (l t : List JStr) : commonLead l (l ++ t) = (l, [], t) := by
  induction l with
  | nil => rfl
  | cons x xs ih => simp [commonLead, ih]

theorem linesKeepNl_cons (c : Char) (t : JStr) :
    linesKeepNl (c :: t) =
      if c = '\n' then ['\n'] :: linesKeepNl t else consHead c (linesKeepNl t) := rfl

theorem linesKeepNl_line (l rest : JStr) (h : '\n' ∉ l) :
    linesKeepNl (l ++ '\n' :: rest) = (l ++ ['\n']) :: linesKeepNl rest := by
  induction l with
  | nil => rfl
  | cons c l2 ih =>
    simp only [List.mem_cons, not_or] at h
    obtain ⟨hc, hl⟩ := h
    show linesKeepNl (c :: (l2 ++ '\n' :: rest)) = ((c :: l2) ++ ['\n']) :: linesKeepNl rest
    rw [linesKeepNl_cons, if_neg (fun e => hc e.symm), ih hl]
    rfl

theorem flattenNl_cons (l : JStr) (ls : List JStr) :
    flattenNl (l :: ls) = l ++ '\n' :: flattenNl ls := by
  simp [flattenNl]

theorem flattenNl_append (a b : List JStr) :
    flattenNl (a ++ b) = flattenNl a ++ flattenNl b := by
  simp [flattenNl]

theorem linesKeepNl_flattenNl (ls : List JStr) (h : ∀ l ∈ ls, '\n' ∉ l) :
    linesKeepNl (flattenNl ls) = ls.map (fun l => l ++ ['\n']) := by
  induction ls with
  | nil => rfl
  | cons l ls2 ih =>
    rw [flattenNl_cons, linesKeepNl_line l _ (h l (List.mem_cons_self l ls2)),
      ih (fun x hx => h x (List.mem_cons_of_mem _ hx))]
    rfl

theorem splitOnChar_nil (sep : Char) : splitOnChar sep [] = [[]] := rfl

theorem splitOnChar_line (l rest : JStr) (h : '\n' ∉ l) :
    splitOnChar '\n' (l ++ '\n' :: rest) = l :: splitOnChar '\n' rest := by
  induction l with
  | nil => rfl
  | cons c l2 ih =>
    simp only [List.mem_cons, not_or] at h
    obtain ⟨hc, hl⟩ := h
    show splitOnChar '\n' (c :: (l2 ++ '\n' :: rest)) = (c :: l2) :: splitOnChar '\n' rest
    show (if c = '\n' then [] :: splitOnChar '\n' (l2 ++ '\n' :: rest)
          else consHead c (splitOnChar '\n' (l2 ++ '\n' :: rest))) =
      (c :: l2) :: splitOnChar '\n' rest
    rw [if_neg (fun e => hc e.symm), ih hl]
    rfl

theorem intercalate_cons_of_ne (s a : JStr) (ls : List JStr) (h : ls ≠ []) :
    List.intercalate s (a :: ls) = a ++ s ++ List.intercalate s ls := by
  cases ls with
  | nil => exact absurd rfl h
  | cons m t => simp [List.intercalate, List.intersperse]

theorem splitOnChar_nl_intercalate (pls : List JStr) (h : ∀ l ∈ pls, '\n' ∉ l)
    (hne : pls ≠ []) :
    splitOnChar '\n' (List.intercalate ['\n'] pls ++ ['\n']) = pls ++ [[]] := by
  induction pls with
  | nil => exact absurd rfl hne
  | cons l t ih =>
    cases t with
    | nil =>
      have h2 : List.intercalate ['\n'] [l] = l := by
        simp [List.intercalate, List.intersperse]
      rw [h2]
      have h3 := splitOnChar_line l [] (h l (List.mem_cons_self l []))
      simpa using h3
    | cons m t2 =>
      rw [intercalate_cons_of_ne _ _ _ (by simp), List.append_assoc, List.append_assoc]
      rw [show (['\n'] : JStr) ++ (List.intercalate ['\n'] (m :: t2) ++ ['\n']) =
        '\n' :: (List.intercalate ['\n'] (m :: t2) ++ ['\n']) from rfl]
      rw [splitOnChar_line l _ (h l (List.mem_cons_self l _)),
        ih (fun x hx => h x (List.mem_cons_of_mem _ hx)) (by simp)]
      rfl

theorem startsWithSeq_append_self (s t : JStr) : startsWithSeq s (s ++ t) = true := by
  induction s with
  | nil => rfl
  | cons c s2 ih => simp [startsWithSeq, ih]

theorem splitOnSeqGo_no_occ (sep : JStr) :
    ∀ (fuel : Nat) (s : JStr), containsSeq sep s = false → splitOnSeqGo sep fuel s = [s] := by
  intro fuel
  induction fuel with
  | zero => intro s _; cases s <;> rfl
  | succ fuel ih =>
    intro s hs
    cases s with
    | nil => rfl
    | cons c rest =>
      simp only [containsSeq, Bool.or_eq_false_iff] at hs
      rw [splitOnSeqGo, if_neg (by simp [hs.1]), ih rest hs.2]
      rfl

theorem splitOnSeq_no_occ (sep s : JStr) (h : containsSeq sep s = false) :
    splitOnSeq sep s = [s] := by
  cases sep with
  | nil =>
    exfalso
    cases s with
    | nil => simp [containsSeq, startsWithSeq] at h
    | cons c rest => simp [containsSeq, startsWithSeq] at h
  | cons p ps =>
    rw [splitOnSeq, if_neg (by simp)]
    exact splitOnSeqGo_no_occ _ _ _ h

theorem splitOnSeq_head_occ (p : Char) (ps rest : JStr)
    (h : containsSeq (p :: ps) rest = false) :
    splitOnSeq (p :: ps) ((p :: ps) ++ rest) = [[], rest] := by
  rw [splitOnSeq, if_neg (by simp)]
  show splitOnSeqGo (p :: ps) (p :: (ps ++ rest)).length (p :: (ps ++ rest)) = [[], rest]
  have hsw : startsWithSeq (p :: ps) (p :: (ps ++ rest)) = true := by
    simpa using startsWithSeq_append_self (p :: ps) rest
  rw [List.length_cons, splitOnSeqGo, if_pos hsw]
  have hdrop : List.drop ((p :: ps).length - 1) (ps ++ rest) = rest := by
    simp [List.drop_left]
  rw [hdrop, splitOnSeqGo_no_occ _ _ _ h]

theorem startsWithSeq_append_nl_false (sep s t : JStr) (hnl : '\n' ∉ sep)
    (h : startsWithSeq sep s = false) :
    startsWithSeq sep (s ++ '\n' :: t) = false := by
  induction sep generalizing s with
  | nil => simp [startsWithSeq] at h
  | cons p ps ih =>
    simp only [List.mem_cons, not_or] at hnl
    have hp : p ≠ '\n' := fun e => hnl.1 e.symm
    cases s with
    | nil =>
      show (decide (p = '\n') && startsWithSeq ps t) = false
      simp [hp]
    | cons c s2 =>
      show (decide (p = c) && startsWithSeq ps (s2 ++ '\n' :: t)) = false
      by_cases hpc : p = c
      · have h2 : startsWithSeq ps s2 = false := by
          simpa [startsWithSeq, hpc] using h
        simp [hpc, ih s2 hnl.2 h2]
      · simp [hpc]

theorem containsSeq_append_nl (sep s t : JStr) (hnl : '\n' ∉ sep)
    (hs : containsSeq sep s = false) (ht : containsSeq sep t = false) :
    containsSeq sep (s ++ '\n' :: t) = false := by
  induction s with
  | nil =>
    cases sep with
    | nil => simp [containsSeq, startsWithSeq] at hs
    | cons p ps =>
      simp only [List.mem_cons, not_or] at hnl
      have hp : p ≠ '\n' := fun e => hnl.1 e.symm
      show (startsWithSeq (p :: ps) ('\n' :: t) || containsSeq (p :: ps) t) = false
      have h1 : startsWithSeq (p :: ps) ('\n' :: t) = false := by
        show (decide (p = '\n') && startsWithSeq ps t) = false
        simp [hp]
      simp [h1, ht]
  | cons c s2 ih =>
    simp only [containsSeq, Bool.or_eq_false_iff] at hs
    show (startsWithSeq sep (c :: s2 ++ '\n' :: t) || containsSeq sep (s2 ++ '\n' :: t)) = false
    have h1 : startsWithSeq sep ((c :: s2) ++ '\n' :: t) = false :=
      startsWithSeq_append_nl_false sep (c :: s2) t hnl hs.1
    simp only [List.cons_append] at h1
    simp [h1, ih hs.2]

theorem containsSeq_intercalate_nl (sep : JStr) (hnl : '\n' ∉ sep) (hne : sep ≠ [])
    (ls : List JStr) (h : ∀ l ∈ ls, containsSeq sep l = false) :
    containsSeq sep (List.intercalate ['\n'] ls) = false := by
  induction ls with
  | nil =>
    cases sep with
    | nil => exact absurd rfl hne
    | cons p ps => rfl
  | cons l t ih =>
    cases t with
    | nil =>
      simpa [List.intercalate, List.intersperse] using h l (List.mem_cons_self l [])
    | cons m t2 =>
      rw [intercalate_cons_of_ne _ _ _ (by simp), List.append_assoc]
      rw [show (['\n'] : JStr) ++ List.intercalate ['\n'] (m :: t2) =
        '\n' :: List.intercalate ['\n'] (m :: t2) from rfl]
      exact containsSeq_append_nl sep l _ hnl (h l (List.mem_cons_self l _))
        (ih (fun x hx => h x (List.mem_cons_of_mem _ hx)))

theorem stripNl_concat (l : JStr) : stripNl (l ++ ['\n']) = l := by
  rw [stripNl, if_pos (List.getLast?_concat l), List.dropLast_concat]

theorem digitChar_ne_nl (d : Nat) (h : d < 10) : digitChar d ≠ '\n' := by
  interval_cases d <;> decide

theorem nl_not_mem_natDigitsGo (fuel : Nat) : ∀ n, '\n' ∉ natDigitsGo fuel n := by
  induction fuel with
  | zero => intro n; simp [natDigitsGo]
  | succ fuel ih =>
    intro n
    rw [natDigitsGo]
    split
    · next h =>
      simp only [List.mem_singleton]
      exact fun e => digitChar_ne_nl n h e.symm
    · next h =>
      simp only [List.mem_append, List.mem_singleton, not_or]
      exact ⟨ih _, fun e => digitChar_ne_nl _ (Nat.mod_lt _ (by norm_num)) e.symm⟩

theorem nl_not_mem_natToJStr (n : Nat) : '\n' ∉ natToJStr n :=
  nl_not_mem_natDigitsGo _ n

theorem nl_not_mem_hunkHeader (a b c d : Nat) : '\n' ∉ hunkHeader a b c d := by
  intro hmem
  simp only [hunkHeader, List.mem_append] at hmem
  rcases hmem with ((((((((h | h) | h) | h) | h) | h) | h) | h) | h) <;>
    first
      | exact absurd h (by decide)
      | exact nl_not_mem_natToJStr _ h

theorem endsWithNl_append_flattenNl (x : JStr) (ls : List JStr) (h : ls ≠ []) :
    endsWithNl (x ++ flattenNl ls) = true := by
  induction ls generalizing x with
  | nil => exact absurd rfl h
  | cons l t ih =>
    cases t with
    | nil =>
      have h2 : flattenNl [l] = l ++ ['\n'] := by simp [flattenNl]
      rw [h2, ← List.append_assoc, endsWithNl, List.getLast?_concat]
      simp
    | cons m t2 =>
      rw [flattenNl_cons,
        show x ++ (l ++ '\n' :: flattenNl (m :: t2)) =
          (x ++ (l ++ ['\n'])) ++ flattenNl (m :: t2) by simp]
      exact ih _ (by simp)

theorem filter_space_map (xs : List JStr) :
    (xs.map (fun b => ' ' :: b)).filter (fun line => startsWithSeq ['+'] line) = [] := by
  induction xs with
  | nil => rfl
  | cons b t ih =>
    have h : startsWithSeq ['+'] (' ' :: b) = false := rfl
    simp [List.filter_cons, h, ih]

theorem filter_plus_map (xs : List JStr) :
    (xs.map (fun l => '+' :: l)).filter (fun line => startsWithSeq ['+'] line) =
      xs.map (fun l => '+' :: l) := by
  induction xs with
  | nil => rfl
  | cons b t ih =>
    have h : startsWithSeq ['+'] ('+' :: b) = true := rfl
    simp [List.filter_cons, h, ih]

theorem extractAdded_patch (hh : JStr) (hhp : startsWithSeq ['+'] hh = false)
    (hhnl : '\n' ∉ hh) (cs ls : List JStr)
    (hcs : ∀ l ∈ cs, '\n' ∉ l) (hls : ∀ l ∈ ls, '\n' ∉ l)
    (hocc : ∀ l ∈ ls, containsSeq (str ("++ code")) l = false) (hne : ls ≠ []) :
    extractAddedLines
      (List.intercalate ['\n']
        ([str ("Index: code"),
          separatorLine,
          str ("--- code"), str ("+++ code")] ++
          hh :: (cs.map (fun b => ' ' :: b) ++ ls.map (fun l => '+' :: l))) ++ ['\n']) =
      ['\n' :: List.intercalate ['\n'] ls] := by
  have hnlPL : ∀ l ∈ ([str ("Index: code"),
      separatorLine,
      str ("--- code"), str ("+++ code")] ++
      hh :: (cs.map (fun b => ' ' :: b) ++ ls.map (fun l => '+' :: l))), '\n' ∉ l := by
    intro l hl
    simp only [List.mem_append, List.mem_cons, List.mem_map, List.not_mem_nil,
      or_false] at hl
    rcases hl with (h | h | h | h) | h | ⟨b, hb, he⟩ | ⟨x, hx, he⟩
    · exact h ▸ (by decide)
    · exact h ▸ (by decide)
    · exact h ▸ (by decide)
    · exact h ▸ (by decide)
    · exact h ▸ hhnl
    · rw [← he]
      simp only [List.mem_cons, not_or]
      exact ⟨by decide, hcs b hb⟩
    · rw [← he]
      simp only [List.mem_cons, not_or]
      exact ⟨by decide, hls x hx⟩
  simp only [extractAddedLines]
  rw [splitOnChar_nl_intercalate _ hnlPL (by simp)]
  have f1 : startsWithSeq ['+'] (str ("Index: code")) = false := by decide
  have f2 : startsWithSeq ['+']
      (separatorLine) = false := by
    decide
  have f3 : startsWithSeq ['+'] (str ("--- code")) = false := by decide
  have f4 : startsWithSeq ['+'] (str ("+++ code")) = true := by decide
  have f0 : startsWithSeq ['+'] ([] : JStr) = false := rfl
  rw [List.filter_append]
  simp only [List.cons_append, List.filter_cons, f1, f2, f3, f4, f0, hhp,
    Bool.false_eq_true, if_false, if_true, List.nil_append, List.filter_nil,
    List.filter_append, filter_space_map, filter_plus_map, List.append_nil]
  have hdrop1 : List.drop 1 (str ("+++ code")) = str ("++ code") := by decide
  simp only [List.map_cons, hdrop1, List.map_map]
  have hdropmap : ls.map (List.drop 1 ∘ fun l => '+' :: l) = ls := by
    have hid : (List.drop 1 ∘ fun l : JStr => '+' :: l) = id := by
      funext a
      rfl
    rw [hid, List.map_id]
  rw [hdropmap]
  rw [intercalate_cons_of_ne _ _ _ hne, List.append_assoc]
  rw [show (['\n'] : JStr) ++ List.intercalate ['\n'] ls =
    '\n' :: List.intercalate ['\n'] ls from rfl]
  have hic := containsSeq_intercalate_nl (str ("++ code")) (by decide) (by decide) ls hocc
  have hocc2 : containsSeq (str ("++ code")) ('\n' :: List.intercalate ['\n'] ls) = false := by
    show (startsWithSeq (str ("++ code")) ('\n' :: List.intercalate ['\n'] ls) ||
      containsSeq (str ("++ code")) (List.intercalate ['\n'] ls)) = false
    rw [hic]
    rfl
  have hsplit := splitOnSeq_head_occ '+' (str ("+ code"))
    ('\n' :: List.intercalate ['\n'] ls) hocc2
  rw [show ('+' :: str ("+ code") : JStr) = str ("++ code") from by decide] at hsplit
  rw [hsplit]
  rfl

/-- Claim C8: `findDifferences` applied to a text and itself returns the
empty sequence; in this embedding it is a pure function of its two list
inputs by construction, and order preservation over the added lines is
part of the amended claim C1 theorem. -/
theorem C8_theorem (x : JStr) : findDifferences x x = [] := by
  have h : createPatch x x = createPatch [] [] := by
    simp [createPatch, commonLead_self, linesKeepNl]
  show extractAddedLines (createPatch x x) = []
  rw [h]
  decide

/-- Claim C1 counterexample: on the round-trip example the code returns
the single block with a leading newline, ["\nbaz"], not ["baz"] as the
claim states. -/
theorem C1_counterexample :
    findDifferences (str ("foo\nbar\n")) (str ("foo\nbar\nbaz\n")) = [str ("\nbaz")] ∧
    ¬ findDifferences (str ("foo\nbar\n")) (str ("foo\nbar\nbaz\n")) = [str ("baz")] := by
  decide

/-- Claim C1 (amended): for every document assembled from
newline-terminated lines and every non-empty list of appended lines (none
containing a newline or the patch header token), `findDifferences`
returns the appended lines in their original order with no lines from the
old document and no empty blocks — but joined into a single block that
starts with one extra newline, the leftover of stripping the `+++ code`
patch file header; in particular the round-trip example returns
["\nbaz"], not ["baz"]. -/
theorem C1_amended_theorem (bs ls : List JStr)
    (hbs : ∀ l ∈ bs, '\n' ∉ l) (hls : ∀ l ∈ ls, '\n' ∉ l)
    (hocc : ∀ l ∈ ls, containsSeq (str ("++ code")) l = false) (hne : ls ≠ []) :
    findDifferences (flattenNl bs) (flattenNl bs ++ flattenNl ls) =
      ['\n' :: List.intercalate ['\n'] ls] := by
  have hmemapp : ∀ l ∈ bs ++ ls, '\n' ∉ l := by
    intro l hl
    rcases List.mem_append.mp hl with h | h
    · exact hbs l h
    · exact hls l h
  have hlines_b : linesKeepNl (flattenNl bs) = bs.map (fun l => l ++ ['\n']) :=
    linesKeepNl_flattenNl bs hbs
  have hlines_a : linesKeepNl (flattenNl bs ++ flattenNl ls) =
      bs.map (fun l => l ++ ['\n']) ++ ls.map (fun l => l ++ ['\n']) := by
    rw [← flattenNl_append, linesKeepNl_flattenNl _ hmemapp, List.map_append]
  have hni : (ls.map (fun l => l ++ ['\n'])).isEmpty = false := by
    cases ls with
    | nil => exact absurd rfl hne
    | cons a t => rfl
  have hew : endsWithNl (flattenNl bs ++ flattenNl ls) = true :=
    endsWithNl_append_flattenNl _ _ hne
  have hctx : (List.drop (bs.length - 4) (bs.map (fun l => l ++ ['\n']))).map
      (fun l => ' ' :: stripNl l) = (List.drop (bs.length - 4) bs).map (fun b => ' ' :: b) := by
    rw [← List.map_drop, List.map_map]
    apply List.map_congr_left
    intro a _
    simp [Function.comp, stripNl_concat]
  have hadd : (ls.map (fun l => l ++ ['\n'])).map (fun l => '+' :: stripNl l) =
      ls.map (fun l => '+' :: l) := by
    rw [List.map_map]
    apply List.map_congr_left
    intro a _
    simp [Function.comp, stripNl_concat]
  show extractAddedLines (createPatch (flattenNl bs) (flattenNl bs ++ flattenNl ls)) =
    ['\n' :: List.intercalate ['\n'] ls]
  simp only [createPatch, hlines_b, hlines_a, commonLead_append, hunkLinesFor, hni, hew,
    List.isEmpty_nil, Bool.true_and, Bool.and_false, List.map_nil, List.nil_append,
    List.append_nil, Bool.true_or, Bool.or_true, Bool.false_or, List.length_map,
    Bool.false_eq_true, if_false, if_true, ite_false, ite_true]
  rw [hctx, hadd]
  refine extractAdded_patch _ ?_ ?_ _ _ ?_ hls hocc hne
  · rfl
  · exact nl_not_mem_hunkHeader _ _ _ _
  · exact fun l hl => hbs l (List.drop_subset _ _ hl)

/-- Claim C1 witness: the amended theorem applied at the round-trip
example of the spec. -/
theorem C1_witness :
    findDifferences (str ("foo\nbar\n")) (str ("foo\nbar\nbaz\n")) = [str ("\nbaz")] := by
  rw [show (str ("foo\nbar\n") : JStr) = flattenNl [str ("foo"), str ("bar")] from by decide,
    show (str ("foo\nbar\nbaz\n") : JStr) =
      flattenNl [str ("foo"), str ("bar")] ++ flattenNl [str ("baz")] from by decide,
    show (str ("\nbaz") : JStr) = '\n' :: List.intercalate ['\n'] [str ("baz")] from by decide]
  exact C1_amended_theorem _ _ (by decide) (by decide) (by decide) (by decide)

/-! ## Escape correctness: the escaped token matches exactly literally -/

theorem escape_cons (c : Char) (t : JStr) :
    escapeRegExp (c :: t) =
      if inEscapeClass c then '\\' :: c :: escapeRegExp t else c :: escapeRegExp t := rfl

theorem escape_length_ge (t : JStr) : t.length ≤ (escapeRegExp t).length := by
  induction t with
  | nil => exact Nat.le_refl 0
  | cons c t2 ih =>
    rw [escape_cons]
    by_cases hc : inEscapeClass c = true
    · rw [if_pos hc]
      simpa using Nat.le_trans ih (by omega)
    · rw [if_neg hc]
      simpa using ih

theorem matchHere_nil_pat (f : Nat) (text : JStr) (pos : Nat) :
    matchHere (f + 1) [] text pos = some pos := rfl

theorem matchHere_backslash (f : Nat) (c : Char) (rest text : JStr) (pos : Nat) :
    matchHere (f + 1) ('\\' :: c :: rest) text pos = matchAtom f (.lit c) rest text pos := rfl

theorem matchHere_plain (f : Nat) (c : Char) (rest text : JStr) (pos : Nat)
    (hc : inEscapeClass c = false) :
    matchHere (f + 1) (c :: rest) text pos = matchAtom f (.lit c) rest text pos := by
  have h1 : ¬ c = '\\' := fun e => by rw [e] at hc; exact absurd hc (by decide)
  have h2 : ¬ c = '^' := fun e => by rw [e] at hc; exact absurd hc (by decide)
  have h3 : ¬ c = '$' := fun e => by rw [e] at hc; exact absurd hc (by decide)
  have h4 : ¬ c = '.' := fun e => by rw [e] at hc; exact absurd hc (by decide)
  have h5 : isRegexSpecial c = false := by
    by_contra hs
    rw [Bool.not_eq_false] at hs
    have hcls : inEscapeClass c = true := by
      simp only [isRegexSpecial, Bool.or_eq_true, decide_eq_true_eq] at hs
      rcases hs with
        (((((((((((((e | e) | e) | e) | e) | e) | e) | e) | e) | e) | e) | e) | e) | e) <;>
        subst e <;> decide
    rw [hcls] at hc
    exact absurd hc (by decide)
  simp only [matchHere]
  rw [if_neg h1, if_neg h2, if_neg h3, if_neg h4, if_neg (by simp [h5])]

theorem matchAtom_escape_step (f : Nat) (a : RegexAtom) (t text : JStr) (pos : Nat) :
    matchAtom (f + 1) a (escapeRegExp t) text pos =
      match stepAtom a text pos with
      | some pos2 => matchHere f (escapeRegExp t) text pos2
      | none => none := by
  cases t with
  | nil =>
    rw [show escapeRegExp [] = [] from rfl]
    rfl
  | cons c t2 =>
    rw [escape_cons]
    by_cases hc : inEscapeClass c = true
    · rw [if_pos hc]
      simp only [matchAtom]
      rw [if_neg (by decide : ¬ ('\\' : Char) = '*'),
        if_neg (by decide : ¬ ('\\' : Char) = '+'),
        if_neg (by decide : ¬ ('\\' : Char) = '?')]
    · rw [if_neg hc]
      have h1 : ¬ c = '*' := fun e => by rw [e] at hc; exact absurd (by decide) hc
      have h2 : ¬ c = '+' := fun e => by rw [e] at hc; exact absurd (by decide) hc
      have h3 : ¬ c = '?' := fun e => by rw [e] at hc; exact absurd (by decide) hc
      simp only [matchAtom]
      rw [if_neg h1, if_neg h2, if_neg h3]

theorem matchHere_escape (t text : JStr) :
    ∀ (pos fuel : Nat), 2 * t.length + 1 ≤ fuel →
      matchHere fuel (escapeRegExp t) text pos =
        if startsWithSeq t (List.drop pos text) then some (pos + t.length) else none := by
  induction t with
  | nil =>
    intro pos fuel hf
    obtain ⟨f, rfl⟩ : ∃ f, fuel = f + 1 := ⟨fuel - 1, by omega⟩
    rw [show escapeRegExp [] = [] from rfl, matchHere_nil_pat]
    simp [startsWithSeq]
  | cons c t2 ih =>
    intro pos fuel hf
    obtain ⟨f1, rfl⟩ : ∃ f1, fuel = f1 + 1 := ⟨fuel - 1, by omega⟩
    simp only [List.length_cons] at hf
    have key : matchAtom f1 (.lit c) (escapeRegExp t2) text pos =
        if startsWithSeq (c :: t2) (List.drop pos text) then some (pos + (t2.length + 1))
        else none := by
      obtain ⟨f2, rfl⟩ : ∃ f2, f1 = f2 + 1 := ⟨f1 - 1, by omega⟩
      rw [matchAtom_escape_step]
      cases hget : text.get? pos with
      | none =>
        have hge : text.length ≤ pos := List.get?_eq_none.mp hget
        have hdrop : List.drop pos text = [] := List.drop_eq_nil_of_le hge
        rw [hdrop]
        show (match stepAtom (RegexAtom.lit c) text pos with
          | some pos2 => matchHere f2 (escapeRegExp t2) text pos2
          | none => none) = _
        rw [stepAtom, hget]
        rfl
      | some ch =>
        have hlt : pos < text.length := by
          by_contra hge
          rw [List.get?_eq_none.mpr (by omega)] at hget
          exact Option.noConfusion hget
        have hchm : text[pos] = ch := by
          obtain ⟨h2, he⟩ := List.get?_eq_some.mp hget
          simpa [List.get_eq_getElem] using he
        have hdrop : List.drop pos text = ch :: List.drop (pos + 1) text := by
          rw [List.drop_eq_getElem_cons hlt, hchm]
        show (match stepAtom (RegexAtom.lit c) text pos with
          | some pos2 => matchHere f2 (escapeRegExp t2) text pos2
          | none => none) = _
        rw [stepAtom, hget]
        by_cases heq : ch = c
        · subst heq
          show (match (if atomMatches (RegexAtom.lit ch) ch = true then some (pos + 1) else none)
            with
            | some pos2 => matchHere f2 (escapeRegExp t2) text pos2
            | none => none) = _
          rw [if_pos (by simp [atomMatches])]
          show matchHere f2 (escapeRegExp t2) text (pos + 1) = _
          rw [ih (pos + 1) f2 (by omega), hdrop]
          have hsw : startsWithSeq (ch :: t2) (ch :: List.drop (pos + 1) text) =
              startsWithSeq t2 (List.drop (pos + 1) text) := by
            show (decide (ch = ch) && startsWithSeq t2 (List.drop (pos + 1) text)) = _
            simp
          rw [hsw, show pos + (t2.length + 1) = pos + 1 + t2.length from by omega]
        · show (match (if atomMatches (RegexAtom.lit c) ch = true then some (pos + 1) else none)
            with
            | some pos2 => matchHere f2 (escapeRegExp t2) text pos2
            | none => none) = _
          have hm : atomMatches (RegexAtom.lit c) ch = false := by
            simp only [atomMatches, decide_eq_false_iff_not]
            exact heq
          rw [if_neg (by simp [hm]), hdrop]
          have hsw : startsWithSeq (c :: t2) (ch :: List.drop (pos + 1) text) = false := by
            show (decide (c = ch) && startsWithSeq t2 (List.drop (pos + 1) text)) = false
            have hne2 : decide (c = ch) = false := by
              simp only [decide_eq_false_iff_not]
              exact fun e => heq e.symm
            rw [hne2, Bool.false_and]
          rw [hsw]
          rfl
    rw [escape_cons]
    by_cases hc : inEscapeClass c = true
    · rw [if_pos hc, matchHere_backslash, key]
      rfl
    · have hc2 : inEscapeClass c = false := by simpa using hc
      rw [if_neg hc, matchHere_plain _ _ _ _ _ hc2, key]
      rfl

/-! ## The exec loop finds exactly the literal occurrences -/

theorem startsWithSeq_length_le (t : JStr) :
    ∀ s : JStr, startsWithSeq t s = true → t.length ≤ s.length := by
  induction t with
  | nil => intro s _; simp
  | cons c t2 ih =>
    intro s h
    cases s with
    | nil => exact absurd h (by simp [startsWithSeq])
    | cons d s2 =>
      have h2 : startsWithSeq t2 s2 = true := by
        simp only [startsWithSeq, Bool.and_eq_true] at h
        exact h.2
      simpa using Nat.succ_le_succ (ih s2 h2)

theorem firstOcc_some (t text : JStr) (L i : Nat) (h : firstOcc t text L = some i) :
    L ≤ i ∧ i ≤ text.length ∧ startsWithSeq t (List.drop i text) = true := by
  have hp := List.find?_some h
  have hmem := List.mem_of_find?_eq_some h
  rw [List.mem_range'_1] at hmem
  refine ⟨hmem.1, by omega, ?_⟩
  simpa using hp

theorem firstOcc_big (t text : JStr) (L : Nat) (h : text.length < L) :
    firstOcc t text L = none := by
  rw [firstOcc, show text.length + 1 - L = 0 from by omega]
  rfl

theorem execScanGo_escape (t text : JStr) :
    ∀ (fuel i : Nat), fuel = text.length + 1 - i →
      execScanGo (escapeRegExp t) text fuel i =
        (firstOcc t text i).map (fun k => (k, k + t.length)) := by
  intro fuel
  induction fuel with
  | zero =>
    intro i hi
    rw [firstOcc_big t text i (by omega)]
    rfl
  | succ fuel ih =>
    intro i hi
    rw [execScanGo, if_neg (by omega),
      matchHere_escape t text i (2 * (escapeRegExp t).length + 1)
        (by have := escape_length_ge t; omega),
      firstOcc, show text.length + 1 - i = fuel + 1 from by omega, List.range'_succ]
    by_cases hsw : startsWithSeq t (List.drop i text) = true
    · rw [if_pos hsw, List.find?_cons_of_pos _ (by simpa using hsw)]
      rfl
    · have hsw2 : startsWithSeq t (List.drop i text) = false := by simpa using hsw
      rw [if_neg (by simp [hsw2]), List.find?_cons_of_neg _ (by simpa using hsw),
        ih (i + 1) (by omega), firstOcc,
        show text.length + 1 - (i + 1) = fuel from by omega]

theorem litStartsGo_fuel_irrel (t text : JStr) (ht : t ≠ []) :
    ∀ f1 f2 L, text.length + 1 - L ≤ f1 → text.length + 1 - L ≤ f2 →
      litStartsGo t text f1 L = litStartsGo t text f2 L := by
  intro f1
  induction f1 with
  | zero =>
    intro f2 L h1 h2
    have hfo := firstOcc_big t text L (by omega)
    cases f2 with
    | zero => rfl
    | succ f2 =>
      show ([] : List Nat) = litStartsGo t text (f2 + 1) L
      rw [litStartsGo, hfo]
  | succ f1 ih =>
    intro f2 L h1 h2
    cases hfo : firstOcc t text L with
    | none =>
      cases f2 with
      | zero => simp only [litStartsGo, hfo]
      | succ f2 => simp only [litStartsGo, hfo]
    | some i =>
      obtain ⟨hLi, hilen, hsw⟩ := firstOcc_some t text L i hfo
      have hlen := startsWithSeq_length_le t _ hsw
      rw [List.length_drop] at hlen
      have htl : 0 < t.length := List.length_pos.mpr ht
      cases f2 with
      | zero => exfalso; omega
      | succ f2 =>
        simp only [litStartsGo, hfo]
        rw [ih f2 (i + t.length) (by omega) (by omega)]

theorem execLoop_escape (t text : JStr) (ht : t ≠ []) :
    ∀ (fuel L : Nat) (acc : List (Nat × Nat)),
      text.length + 1 - L ≤ fuel → L ≤ text.length →
      execLoop (escapeRegExp t) text fuel L acc =
        some (acc.reverse ++
          (litStartsGo t text fuel L).map (fun i => (i, i + t.length))) := by
  intro fuel
  induction fuel with
  | zero =>
    intro L acc h1 h2
    exfalso
    omega
  | succ fuel ih =>
    intro L acc h1 h2
    rw [execLoop,
      show regexExec (escapeRegExp t) text L =
        (firstOcc t text L).map (fun k => (k, k + t.length)) from
        execScanGo_escape t text (text.length + 1 - L) L rfl]
    cases hfo : firstOcc t text L with
    | none => simp [litStartsGo, hfo]
    | some i =>
      obtain ⟨hLi, hilen, hsw⟩ := firstOcc_some t text L i hfo
      have hlen := startsWithSeq_length_le t _ hsw
      rw [List.length_drop] at hlen
      have htl : 0 < t.length := List.length_pos.mpr ht
      show execLoop (escapeRegExp t) text fuel (i + t.length) ((i, i + t.length) :: acc) = _
      rw [ih (i + t.length) ((i, i + t.length) :: acc) (by omega) (by omega)]
      simp [litStartsGo, hfo, List.reverse_cons, List.append_assoc]

theorem execLoop_litStarts (t text : JStr) (fuel : Nat) (ht : t ≠ [])
    (hf : text.length + 1 ≤ fuel) :
    execLoop (escapeRegExp t) text fuel 0 [] =
      some ((litStarts t text).map (fun i => (i, i + t.length))) := by
  rw [execLoop_escape t text ht fuel 0 [] (by omega) (by omega),
    litStartsGo_fuel_irrel t text ht fuel (text.length + 1) 0 (by omega) (by omega)]
  simp [litStarts]

theorem litStartsGo_lb (t text : JStr) (ht : t ≠ []) :
    ∀ fuel L, ∀ x ∈ litStartsGo t text fuel L, L ≤ x := by
  intro fuel
  induction fuel with
  | zero => intro L x hx; simp [litStartsGo] at hx
  | succ fuel ih =>
    intro L x hx
    cases hfo : firstOcc t text L with
    | none =>
      rw [litStartsGo, hfo] at hx
      simp at hx
    | some i =>
      rw [litStartsGo, hfo] at hx
      obtain ⟨hLi, hilen, hsw⟩ := firstOcc_some t text L i hfo
      have htl : 0 < t.length := List.length_pos.mpr ht
      rcases List.mem_cons.mp hx with rfl | hx2
      · exact hLi
      · have := ih (i + t.length) x hx2
        omega

theorem litStartsGo_chain (t text : JStr) (ht : t ≠ []) :
    ∀ fuel L, List.Chain' (fun a b => a < b) (litStartsGo t text fuel L) := by
  intro fuel
  induction fuel with
  | zero => intro L; simp [litStartsGo]
  | succ fuel ih =>
    intro L
    cases hfo : firstOcc t text L with
    | none =>
      rw [litStartsGo, hfo]
      simp
    | some i =>
      rw [litStartsGo, hfo, List.chain'_cons']
      refine ⟨?_, ih (i + t.length)⟩
      intro b hb
      have hmem : b ∈ litStartsGo t text fuel (i + t.length) :=
        List.mem_of_mem_head? hb
      have hlb := litStartsGo_lb t text ht fuel (i + t.length) b hmem
      have htl : 0 < t.length := List.length_pos.mpr ht
      omega

theorem litStarts_chain (t text : JStr) (ht : t ≠ []) :
    List.Chain' (fun a b => a < b) (litStarts t text) :=
  litStartsGo_chain t text ht (text.length + 1) 0

theorem typoDiags_eq (fuel : Nat) (text : JStr) (ty : CodespellTypo)
    (ht : ty.token ≠ []) (hf : text.length + 1 ≤ fuel) :
    typoDiags fuel text ty =
      some ((litStarts ty.token text).map
        (fun i => mkDiagnostic text ty i (i + ty.token.length))) := by
  rw [typoDiags, execLoop_litStarts ty.token text fuel ht hf]
  simp [List.map_map]

theorem computeDiags_eq (fuel : Nat) (text : JStr) (hf : text.length + 1 ≤ fuel) :
    ∀ (typos : List CodespellTypo), (∀ ty ∈ typos, ty.token ≠ []) →
      computeDiags fuel typos text =
        some ((typos.map (fun ty => (litStarts ty.token text).map
          (fun i => mkDiagnostic text ty i (i + ty.token.length)))).flatten) := by
  intro typos
  induction typos with
  | nil => intro _; rfl
  | cons ty rest ih =>
    intro h
    rw [computeDiags,
      typoDiags_eq fuel text ty (h ty (List.mem_cons_self _ _)) hf]
    show (computeDiags fuel rest text).map _ = _
    rw [ih (fun x hx => h x (List.mem_cons_of_mem _ hx))]
    simp

/-- Claim C2: for every non-empty token — including tokens that contain
pattern-special characters or embedded newlines — the match loop run by
`refreshDiagnostics`, which compiles `escapeRegExp` of the token and
repeatedly calls the modelled JS regex engine, finds exactly the literal
non-overlapping left-to-right occurrences of the token (`litStarts`,
defined by verbatim character comparison): the token is never interpreted
as a pattern, and a match spanning a line boundary is not blocked. -/
theorem C2_theorem (t text : JStr) (fuel : Nat) (ht : t ≠ [])
    (hf : text.length + 1 ≤ fuel) :
    execLoop (escapeRegExp t) text fuel 0 [] =
      some ((litStarts t text).map (fun i => (i, i + t.length))) :=
  execLoop_litStarts t text fuel ht hf

/-- Claim C2 witness: a token containing the wildcard character and an
embedded newline is matched only verbatim — in the text below the escaped
pattern yields exactly the literal occurrence at offset 5, not the
wildcard-style variant at offset 0. -/
theorem C2_witness :
    execLoop (escapeRegExp (str ("a.\nb"))) (str ("axzb a.\nb")) 10 0 [] =
      some [(5, 9)] := by
  rw [C2_theorem (str ("a.\nb")) (str ("axzb a.\nb")) 10 (by decide) (by decide)]
  decide

/-- Claim C3: with every token in the list non-empty, the diagnostics
array built by the refresh is exactly, per typo in typo order, one
diagnostic per literal occurrence of its token, each with offsets
(occurrence start, start plus token length) mapped to positions by the
`mkDiagnostic` constructor, with the occurrence offsets strictly
increasing within each typo (so all its ranges are distinct); a token
with zero occurrences contributes zero diagnostics and the computation
still succeeds. -/
theorem C3_theorem (typos : List CodespellTypo) (text : JStr) (fuel : Nat)
    (h : ∀ ty ∈ typos, ty.token ≠ []) (hf : text.length + 1 ≤ fuel) :
    computeDiags fuel typos text =
      some ((typos.map (fun ty => (litStarts ty.token text).map
        (fun i => mkDiagnostic text ty i (i + ty.token.length)))).flatten) ∧
    ∀ ty ∈ typos, List.Chain' (fun a b => a < b) (litStarts ty.token text) :=
  ⟨computeDiags_eq fuel text hf typos h,
    fun ty hty => litStarts_chain ty.token text (h ty hty)⟩

/-- Claim C3 witness: a token occurring three times yields exactly three
diagnostics at the three literal occurrence offsets. -/
theorem C3_witness :
    computeDiags 9 [⟨str ("ab"), [], str ("dup"), none, none⟩] (str ("ab ab ab")) =
      some
        [mkDiagnostic (str ("ab ab ab")) ⟨str ("ab"), [], str ("dup"), none, none⟩ 0 2,
          mkDiagnostic (str ("ab ab ab")) ⟨str ("ab"), [], str ("dup"), none, none⟩ 3 5,
          mkDiagnostic (str ("ab ab ab")) ⟨str ("ab"), [], str ("dup"), none, none⟩ 6 8] := by
  rw [(C3_theorem [⟨str ("ab"), [], str ("dup"), none, none⟩] (str ("ab ab ab")) 9
    (by decide) (by decide)).1]
  decide

/-- Claim C9: the refresh computation terminates for every document text
once every token in the typo list is non-empty (fuel of the text length
plus one suffices and yields a value), while a typo whose token is the
empty string makes the inner exec loop never finish: the zero-length
global match never advances `lastIndex`, so the computation yields `none`
at every fuel. -/
theorem C9_theorem :
    (∀ (typos : List CodespellTypo) (text : JStr) (fuel : Nat),
      (∀ ty ∈ typos, ty.token ≠ []) → text.length + 1 ≤ fuel →
      (computeDiags fuel typos text).isSome = true) ∧
    (∀ (ty : CodespellTypo) (text : JStr) (fuel : Nat), ty.token = [] →
      computeDiags fuel [ty] text = none) := by
  constructor
  · intro typos text fuel h hf
    rw [computeDiags_eq fuel text hf typos h]
    rfl
  · intro ty text fuel hty
    have hloop : ∀ f acc, execLoop [] text f 0 acc = none := by
      intro f
      induction f with
      | zero => intro acc; rfl
      | succ f ih =>
        intro acc
        have hre : regexExec [] text 0 = some (0, 0) := by
          rw [regexExec, show text.length + 1 - 0 = text.length + 1 from by omega,
            execScanGo, if_neg (by omega)]
          rfl
        rw [execLoop, hre]
        exact ih ((0, 0) :: acc)
    rw [computeDiags, typoDiags, hty, show escapeRegExp [] = [] from rfl, hloop fuel []]
    rfl

/-- Claim C9 witness: the two halves at concrete inputs — a non-empty
token completes within the fuel bound, the empty token never completes. -/
theorem C9_witness :
    (computeDiags 3 [⟨str ("ab"), [], str ("k"), none, none⟩] (str ("ab"))).isSome = true ∧
    computeDiags 7 [⟨[], [], str ("k"), none, none⟩] (str ("ab")) = none := by
  constructor
  · exact C9_theorem.1 _ _ _ (by decide) (by decide)
  · exact C9_theorem.2 ⟨[], [], str ("k"), none, none⟩ (str ("ab")) 7 rfl

/-! ## The diagnostic record fields and the lifecycle claims -/

/-- Claim C7: every diagnostic built by the constructor carries the typo
description as its message, the constant `codespell` code tag, and a
severity that is the explicit `typo.severity` when it is defined,
`Warning` when the severity is absent and `isCommon` is `true` or absent,
and `Information` when the severity is absent and `isCommon` is
`false`. -/
theorem C7_theorem (text : JStr) (ty : CodespellTypo) (s e : Nat) :
    (mkDiagnostic text ty s e).message = ty.info ∧
    (mkDiagnostic text ty s e).code = str ("codespell") ∧
    (∀ sev, ty.severity = some sev → (mkDiagnostic text ty s e).severity = sev) ∧
    (ty.severity = none → ty.isCommon = some true ∨ ty.isCommon = none →
      (mkDiagnostic text ty s e).severity = DiagnosticSeverity.Warning) ∧
    (ty.severity = none → ty.isCommon = some false →
      (mkDiagnostic text ty s e).severity = DiagnosticSeverity.Information) := by
  refine ⟨rfl, rfl, ?_, ?_, ?_⟩
  · intro sev hsev
    simp [mkDiagnostic, hsev]
  · intro hs hic
    rcases hic with h | h <;> simp [mkDiagnostic, hs, h]
  · intro hs hic
    simp [mkDiagnostic, hs, hic]

/-- Claim C7 witness: the theorem applied at a concrete typo with absent
severity and `isCommon = false`, yielding an Information diagnostic with
the typo description as message. -/
theorem C7_witness :
    (mkDiagnostic (str ("x")) ⟨str ("x"), [], str ("msg"), none, some false⟩ 0 1).severity =
      DiagnosticSeverity.Information ∧
    (mkDiagnostic (str ("x")) ⟨str ("x"), [], str ("msg"), none, some false⟩ 0 1).message =
      str ("msg") := by
  have h := C7_theorem (str ("x")) ⟨str ("x"), [], str ("msg"), none, some false⟩ 0 1
  exact ⟨h.2.2.2.2 rfl rfl, h.1⟩

/-- Claim C10: when the Typo Store holds no entry for a document,
`refreshDiagnostics` returns before touching the Diagnostic Collection:
the whole state is unchanged, so the diagnostics previously published for
the document remain rather than being cleared or replaced. -/
theorem C10_theorem (fuel : Nat) (st : ExtState) (uri text : JStr)
    (h : lookupS st.typoStore uri = none) :
    refreshDiagnostics fuel st uri text = some st := by
  rw [refreshDiagnostics, h]

/-- Claim C10 witness: a refresh of a document with no Typo Store entry
leaves its previously published diagnostics in the collection. -/
theorem C10_witness :
    refreshDiagnostics 5
      ⟨[], [(['u'], [mkDiagnostic ['t'] ⟨['t'], [], ['m'], none, none⟩ 0 1])], []⟩
      ['u'] (str ("zz")) =
      some ⟨[], [(['u'], [mkDiagnostic ['t'] ⟨['t'], [], ['m'], none, none⟩ 0 1])], []⟩ :=
  C10_theorem 5 _ ['u'] (str ("zz")) rfl

theorem lookupS_eraseS_self {α : Type} (m : StoreMap α) (k : JStr) :
    lookupS (eraseS m k) k = none := by
  induction m with
  | nil => rfl
  | cons p rest ih =>
    obtain ⟨k2, v⟩ := p
    rw [eraseS]
    by_cases h : k2 = k
    · rw [if_pos h]
      exact ih
    · rw [if_neg h, lookupS, if_neg h]
      exact ih

/-- Claim C4 counterexample: at this concrete state, closing the document
leaves the Typo Store entry and the saved-content baseline in place —
only the Diagnostic Collection entry is removed — so the claim that after
close neither store has an entry and the baseline is released is false. -/
theorem C4_counterexample :
    (lookupS (closeHandler ⟨[(['u'], [⟨['t'], [], ['m'], none, none⟩])], [(['u'], [])],
        [(['u'], ['c'])]⟩ ['u']).typoStore ['u'] =
      some [⟨['t'], [], ['m'], none, none⟩]) ∧
    (lookupS (closeHandler ⟨[(['u'], [⟨['t'], [], ['m'], none, none⟩])], [(['u'], [])],
        [(['u'], ['c'])]⟩ ['u']).lastSavedContent ['u'] = some ['c']) ∧
    (lookupS (closeHandler ⟨[(['u'], [⟨['t'], [], ['m'], none, none⟩])], [(['u'], [])],
        [(['u'], ['c'])]⟩ ['u']).diagColl ['u'] = none) := by
  decide

/-- Claim C4 (amended): closing a document removes exactly the Diagnostic
Collection entry for its identity; the Typo Store and the saved-content
baseline snapshot are left untouched by the close handler. -/
theorem C4_amended_theorem (st : ExtState) (uri : JStr) :
    lookupS (closeHandler st uri).diagColl uri = none ∧
    (closeHandler st uri).typoStore = st.typoStore ∧
    (closeHandler st uri).lastSavedContent = st.lastSavedContent :=
  ⟨lookupS_eraseS_self st.diagColl uri, rfl, rfl⟩

theorem refresh_some (fuel : Nat) (st : ExtState) (uri text : JStr)
    (h : ∀ tys, lookupS st.typoStore uri = some tys → ∀ ty ∈ tys, ty.token ≠ [])
    (hf : text.length + 1 ≤ fuel) :
    ∃ st2, refreshDiagnostics fuel st uri text = some st2 ∧
      st2.typoStore = st.typoStore ∧ st2.lastSavedContent = st.lastSavedContent := by
  rw [refreshDiagnostics]
  cases hlk : lookupS st.typoStore uri with
  | none => exact ⟨st, rfl, rfl, rfl⟩
  | some tys =>
    show ∃ st2,
      Option.map (fun ds => { st with diagColl := setS st.diagColl uri ds })
        (computeDiags fuel tys text) = some st2 ∧
      st2.typoStore = st.typoStore ∧ st2.lastSavedContent = st.lastSavedContent
    rw [computeDiags_eq fuel text hf tys (h tys hlk)]
    exact ⟨_, rfl, rfl, rfl⟩

/-- Claim C5: when the adapter outcome of a save is a failure, the save
continuation completes without an uncaught exception and the prior Typo
Store entry remains: the failure is absorbed at the modelled `spellCheck`
call site as zero new typos for that save.  (Non-empty store tokens and
the fuel bound make the subsequent diagnostic refresh finish.) -/
theorem C5_theorem (fuel : Nat) (st : ExtState) (uri captured live : JStr)
    (h : ∀ tys, lookupS st.typoStore uri = some tys → ∀ ty ∈ tys, ty.token ≠ [])
    (hf : live.length + 1 ≤ fuel) :
    ∃ st2, savePhase2 fuel st uri captured live (.error ()) = some st2 ∧
      st2.typoStore = st.typoStore := by
  rw [savePhase2, show spellCheckApply st uri (.error ()) = st from rfl]
  obtain ⟨st2, hr, hts, hls⟩ := refresh_some fuel st uri live h hf
  rw [hr]
  exact ⟨_, rfl, hts⟩

/-- Claim C5 witness: a failed analysis on a concrete state completes and
leaves the prior Typo Store entry in place. -/
theorem C5_witness :
    ∃ st2, savePhase2 5 ⟨[(['u'], [⟨['t'], [], ['m'], none, none⟩])], [], []⟩ ['u']
        ['c'] ['x'] (.error ()) = some st2 ∧
      st2.typoStore = [(['u'], [⟨['t'], [], ['m'], none, none⟩])] := by
  exact C5_theorem 5 ⟨[(['u'], [⟨['t'], [], ['m'], none, none⟩])], [], []⟩ ['u'] ['c'] ['x']
    (fun tys hl => by
      have h2 : ([⟨['t'], [], ['m'], none, none⟩] : List CodespellTypo) = tys :=
        Option.some.inj hl
      cases h2
      decide)
    (by decide)

/-- Claim C6 counterexample: the rapid-succession schedule — save 1 runs
its synchronous part, save 2 runs its synchronous part, save 2's analysis
resolves and is applied, then save 1's stale analysis resolves — ends
with save 1's typo list in the store and save 1's content in the
snapshot, overwriting save 2's already-applied state; and save 2's diff
was computed against the baseline from before save 1, not against the
immediately preceding save. -/
theorem C6_counterexample :
    ((savePhase2 10
        ((savePhase1 ((savePhase1 ⟨[], [], [(['u'], str ("a\n"))]⟩ ['u'] (str ("a\nb\n"))).1)
          ['u'] (str ("a\nb\nc\n"))).1)
        ['u'] (str ("a\nb\nc\n")) (str ("a\nb\nc\n"))
        (.ok [⟨['c'], [], ['x'], none, none⟩])).bind
      (fun s => savePhase2 10 s ['u'] (str ("a\nb\n")) (str ("a\nb\nc\n"))
        (.ok [⟨['b'], [], ['y'], none, none⟩]))).map
      (fun s => (lookupS s.typoStore ['u'], lookupS s.lastSavedContent ['u'])) =
      some (some [⟨['b'], [], ['y'], none, none⟩], some (str ("a\nb\n"))) ∧
    (savePhase1 ((savePhase1 ⟨[], [], [(['u'], str ("a\n"))]⟩ ['u'] (str ("a\nb\n"))).1)
        ['u'] (str ("a\nb\nc\n"))).2 =
      some (findDifferences (str ("a\n")) (str ("a\nb\nc\n"))) ∧
    findDifferences (str ("a\n")) (str ("a\nb\nc\n")) ≠
      findDifferences (str ("a\nb\n")) (str ("a\nb\nc\n")) ∧
    [(⟨['b'], [], ['y'], none, none⟩ : CodespellTypo)] ≠ [⟨['c'], [], ['x'], none, none⟩] := by
  decide

/-- Claim C6 (amended): the save pipeline has no staleness guard — a save
continuation that resolves after a later save simply applies its outcome:
the Typo Store entry becomes its typo list and the baseline snapshot its
captured content, regardless of any analysis applied in between; and the
snapshot is written only in the continuation, not at diff time, so a save
arriving while an analysis is pending diffs against the snapshot of the
save before it. -/
theorem C6_amended_theorem (fuel : Nat) (st : ExtState) (uri captured live : JStr)
    (tys : List CodespellTypo) (h : ∀ ty ∈ tys, ty.token ≠ [])
    (hf : live.length + 1 ≤ fuel) :
    ∃ st2, savePhase2 fuel st uri captured live (.ok tys) = some st2 ∧
      lookupS st2.typoStore uri = some tys ∧
      lookupS st2.lastSavedContent uri = some captured := by
  rw [savePhase2,
    show spellCheckApply st uri (.ok tys) =
      { st with typoStore := setS st.typoStore uri tys } from rfl]
  have hlk : lookupS (setS st.typoStore uri tys) uri = some tys := by
    rw [setS, lookupS, if_pos rfl]
  obtain ⟨st2, hr, hts, hls⟩ :=
    refresh_some fuel { st with typoStore := setS st.typoStore uri tys } uri live
      (fun tys2 hl => by
        rw [show lookupS ({ st with typoStore := setS st.typoStore uri tys} : ExtState).typoStore
          uri = some tys from hlk] at hl
        cases Option.some.inj hl
        exact h)
      hf
  rw [hr]
  refine ⟨_, rfl, ?_, ?_⟩
  · show lookupS st2.typoStore uri = some tys
    rw [hts]
    exact hlk
  · show lookupS (setS st2.lastSavedContent uri captured) uri = some captured
    rw [setS, lookupS, if_pos rfl]

/-- Claim C6 witness: the amended theorem at a concrete state where a
newer analysis is already applied — the later-arriving outcome still
overwrites the store entry and the snapshot. -/
theorem C6_witness :
    ∃ st2, savePhase2 6 ⟨[(['u'], [⟨['c'], [], ['x'], none, none⟩])], [], []⟩ ['u']
        (str ("a\nb\n")) (str ("a\nc\n")) (.ok [⟨['b'], [], ['y'], none, none⟩]) = some st2 ∧
      lookupS st2.typoStore ['u'] = some [⟨['b'], [], ['y'], none, none⟩] ∧
      lookupS st2.lastSavedContent ['u'] = some (str ("a\nb\n")) := by
  exact C6_amended_theorem 6 _ ['u'] _ _ _ (by decide) (by decide)
